import Mathlib

/-!
Verification of the bridging logic of prometheus-nats-ambassador.

The Go sources are shallowly embedded: Go strings are modelled as `List Char`
(the embedding is byte-faithful on ASCII data, which is all the protocol
grammar uses; per-byte UTF-8 escaping of characters above U+00FF is the one
place where the model and Go differ), machine integers as `Int`/`Nat`
(overflow of `strconv.Atoi` at 64 bits is not modelled; all durations in the
claims are small), fallible operations as `Option`/`Except`, and the
process-terminating `logger.Fatal` calls as an explicit `fatal` outcome.
External collaborators (the NATS client, the outbound HTTP client, the
publish call) are passed in as oracle functions, and the observable actions
taken through them (bus request issued, HTTP request issued, bus reply sent,
publish attempted) are returned as data so that theorems can talk about
them.
-/

/-- Go strings, modelled as lists of characters. -/
abbrev Str := List Char

/-- ASCII lower-casing of one character, as `strings.ToLower` acts on ASCII. -/
def lowerChar (c : Char) : Char :=
  if 65 ≤ c.toNat ∧ c.toNat ≤ 90 then Char.ofNat (c.toNat + 32) else c

/-- `strings.ToLower` (ASCII fragment). -/
def toLowerStr (s : Str) : Str := s.map lowerChar

/-- `strings.Split(s, sep)` for a one-character separator. -/
def splitOnCh (sep : Char) : Str → List Str
  | [] => [[]]
  | c :: rest =>
    match splitOnCh sep rest with
    | [] => [[c]]
    | s :: ss => if c = sep then [] :: s :: ss else (c :: s) :: ss

/-- `strings.Join(segs, sep)` for a one-character separator. -/
def joinCh (sep : Char) : List Str → Str
  | [] => []
  | s :: rest =>
    match rest with
    | [] => s
    | _ :: _ => s ++ sep :: joinCh sep rest

/-- Index of the last occurrence of a byte, as the `last` helper inside
`net.SplitHostPort` (which returns -1 when absent; here `none`). -/
def lastIdx (b : Char) : Str → Option Nat
  | [] => none
  | c :: rest =>
    match lastIdx b rest with
    | some i => some (i + 1)
    | none => if c = b then some 0 else none

/-- Index of the first occurrence of a byte (`byteIndex` in `net`). -/
def firstIdx (b : Char) : Str → Option Nat
  | [] => none
  | c :: rest => if c = b then some 0 else (firstIdx b rest).map (· + 1)

def missingPortMsg : Str := ("missing port in address").data

def tooManyColonsMsg : Str := ("too many colons in address").data

/-- Embedding of Go `net.SplitHostPort`: the port starts after the last
colon; a missing colon is an error; bracketed IPv6 literals are peeled. -/
def SplitHostPort (hostPort : Str) : Except Str (Str × Str) :=
  match lastIdx ':' hostPort with
  | none => .error missingPortMsg
  | some i =>
    match hostPort with
    | '[' :: _ =>
      match firstIdx ']' hostPort with
      | none => .error ("missing right bracket in address").data
      | some endi =>
        if endi + 1 = hostPort.length then .error missingPortMsg
        else if endi + 1 = i then
          if '[' ∈ hostPort.drop 1 then
            .error ("unexpected left bracket in address").data
          else if ']' ∈ hostPort.drop (endi + 1) then
            .error ("unexpected right bracket in address").data
          else .ok ((hostPort.drop 1).take (endi - 1), hostPort.drop (i + 1))
        else
          if hostPort.getD (endi + 1) (Char.ofNat 0) = ':' then .error tooManyColonsMsg
          else .error missingPortMsg
    | _ =>
      if ':' ∈ hostPort.take i then .error tooManyColonsMsg
      else if '[' ∈ hostPort then .error ("unexpected left bracket in address").data
      else if ']' ∈ hostPort then .error ("unexpected right bracket in address").data
      else .ok (hostPort.take i, hostPort.drop (i + 1))

/-- The compiled-in default of the `topicBase` configuration variable. -/
def defaultTopicBase : Str := ("io.prometheus.exporter.").data

/-- The compiled-in default of the `topicFmt` configuration variable. -/
def defaultTopicFmt : Str := ("mod").data

/-- The `switch topicFmt` rendering step of the proxy handler: `rev` joins
the reversed labels, `fwd` joins them unchanged, anything else replaces
dots with underscores. -/
def renderHostName (fmt hostName : Str) : Str :=
  let hostFwd := splitOnCh '.' hostName
  let hostRev := hostFwd.reverse
  if fmt = ("rev").data then joinCh '.' hostRev
  else if fmt = ("fwd").data then joinCh '.' hostFwd
  else hostName.map (fun c => if c = '.' then '_' else c)

/-- The subject-derivation slice of `ProxyRequestHandler`, applied to the
already-lower-cased host. Splitting failure is propagated (the handler
answers 502 there); a successful split with both components empty (input
`:`) falls back to the whole input as host with port 80. -/
def resolveSubject (base fmt hostReq : Str) : Except Str Str :=
  match SplitHostPort hostReq with
  | .error e => .error e
  | .ok hp =>
    let hostName := if hp.1 = [] ∧ hp.2 = [] then hostReq else hp.1
    let hostPort := if hp.1 = [] ∧ hp.2 = [] then ("80").data else hp.2
    .ok (base ++ renderHostName fmt hostName ++ '.' :: hostPort)

/-- The `resolve(hostPort, mode)` contract of the spec: lower-case, then
derive the subject under the default base. -/
def resolve (hostPort fmt : Str) : Except Str Str :=
  resolveSubject defaultTopicBase fmt (toLowerStr hostPort)

/-- The decimal digit character for `n % 10`. -/
def digitChar (n : Nat) : Char := Char.ofNat (48 + n % 10)

/-- Fuel-bounded decimal rendering loop (structural recursion on the fuel
so that concrete payloads evaluate inside the kernel; with fuel above `n`
it is the usual digit loop). -/
def natToDigitsCore : Nat → Nat → Str → Str
  | 0, _, acc => acc
  | fuel + 1, n, acc =>
    if n < 10 then digitChar n :: acc
    else natToDigitsCore fuel (n / 10) (digitChar (n % 10) :: acc)

/-- Decimal rendering of a natural number in front of `acc`. -/
def natToDigits (n : Nat) (acc : Str) : Str := natToDigitsCore (n + 1) n acc

/-- Go `strconv.Itoa`. -/
def Itoa (i : Int) : Str :=
  if i < 0 then '-' :: natToDigits i.natAbs [] else natToDigits i.toNat []

/-- Value of a decimal digit character. -/
def digitVal (c : Char) : Option Nat :=
  if 48 ≤ c.toNat ∧ c.toNat ≤ 57 then some (c.toNat - 48) else none

/-- Left-to-right accumulation of a digit string. -/
def digitsValAux (acc : Nat) : Str → Option Nat
  | [] => some acc
  | c :: rest =>
    match digitVal c with
    | none => none
    | some d => digitsValAux (acc * 10 + d) rest

/-- Value of a non-empty all-digit string. -/
def digitsVal : Str → Option Nat
  | [] => none
  | s => digitsValAux 0 s

/-- Go `strconv.Atoi`: optional sign followed by decimal digits; anything
else is an error (`none`). The 64-bit range error of Go is not modelled. -/
def Atoi (s : Str) : Option Int :=
  match s with
  | [] => none
  | c :: rest =>
    if c = '+' then
      match digitsVal rest with
      | some n => some ((n : Int))
      | none => none
    else if c = '-' then
      match digitsVal rest with
      | some n => some (-(n : Int))
      | none => none
    else
      match digitsVal (c :: rest) with
      | some n => some ((n : Int))
      | none => none

/-- Characters Go `url.QueryEscape` leaves untouched: ASCII alphanumerics
and `-._~` (space is special-cased to `+` before this test). -/
def shouldEscape (c : Char) : Bool :=
  if ('a' ≤ c ∧ c ≤ 'z') ∨ ('A' ≤ c ∧ c ≤ 'Z') ∨ ('0' ≤ c ∧ c ≤ '9')
      ∨ c = '-' ∨ c = '_' ∨ c = '.' ∨ c = '~' then false else true

/-- Upper-case hexadecimal digit of `n % 16`, as `upperhex[...]` in Go. -/
def upperHexDigit (n : Nat) : Char :=
  if n % 16 < 10 then Char.ofNat (48 + n % 16) else Char.ofNat (55 + n % 16)

/-- Escaping of one character under `url.QueryEscape`. -/
def queryEscapeChar (c : Char) : Str :=
  if c = ' ' then ['+']
  else if shouldEscape c then ['%', upperHexDigit (c.toNat / 16), upperHexDigit c.toNat]
  else [c]

/-- Concatenated image of a character-to-string map. -/
def flatMapStr (f : Char → Str) : Str → Str
  | [] => []
  | c :: rest => f c ++ flatMapStr f rest

/-- Go `url.QueryEscape`. -/
def queryEscape (s : Str) : Str := flatMapStr queryEscapeChar s

/-- Value of a hexadecimal digit character. -/
def hexDigitVal (c : Char) : Option Nat :=
  if 48 ≤ c.toNat ∧ c.toNat ≤ 57 then some (c.toNat - 48)
  else if 97 ≤ c.toNat ∧ c.toNat ≤ 102 then some (c.toNat - 87)
  else if 65 ≤ c.toNat ∧ c.toNat ≤ 70 then some (c.toNat - 55)
  else none

/-- Go `url.QueryUnescape`: `%XX` decodes to a byte, `+` to a space, an
incomplete or non-hexadecimal escape is an error. -/
def queryUnescape : Str → Option Str
  | [] => some []
  | c :: rest =>
    if c = '%' then
      match rest with
      | h1 :: h2 :: rest2 =>
        match hexDigitVal h1, hexDigitVal h2 with
        | some d1, some d2 => (queryUnescape rest2).map (fun t => Char.ofNat (d1 * 16 + d2) :: t)
        | _, _ => none
      | _ => none
    else if c = '+' then (queryUnescape rest).map (fun t => ' ' :: t)
    else (queryUnescape rest).map (fun t => c :: t)

/-- `url.Values`: the key-to-values map, modelled as an association list
(first binding of a key wins on lookup; `valuesAdd` keeps keys unique). -/
abbrev Values := List (Str × List Str)

/-- `Values.Add`: append one value to the key's slice. -/
def valuesAdd (m : Values) (k v : Str) : Values :=
  match m with
  | [] => [(k, [v])]
  | kv :: rest => if kv.1 = k then (kv.1, kv.2 ++ [v]) :: rest else kv :: valuesAdd rest k v

/-- All values bound to a key. -/
def valuesGetAll (m : Values) (k : Str) : List Str :=
  match m with
  | [] => []
  | kv :: rest => if kv.1 = k then kv.2 else valuesGetAll rest k

/-- `Values.Get`: the first value of the key, or the empty string. -/
def valuesGet (m : Values) (k : Str) : Str :=
  match valuesGetAll m k with
  | [] => []
  | v :: _ => v

/-- `Values.Del`: drop the key. -/
def valuesDel (m : Values) (k : Str) : Values :=
  m.filter (fun kv => decide (kv.1 ≠ k))

/-- Go `strings.Cut(s, "=")`, returning the parts before and after the
first `=` (the whole string and `""` when there is none). -/
def cutEq : Str → Str × Str
  | [] => ([], [])
  | c :: rest =>
    if c = '=' then ([], rest)
    else
      let ba := cutEq rest
      (c :: ba.1, ba.2)

/-- Treatment of one `&`-separated segment inside `url.ParseQuery`: empty
segments and segments holding `;` are skipped, the segment is cut at the
first `=`, and both halves must unescape. -/
def segKV (seg : Str) : Option (Str × Str) :=
  if seg = [] then none
  else if ';' ∈ seg then none
  else
    match queryUnescape (cutEq seg).1, queryUnescape (cutEq seg).2 with
    | some k, some v => some (k, v)
    | _, _ => none

/-- The accumulation loop of `url.ParseQuery`. -/
def parseQuerySegs : List Str → Values → Values
  | [], m => m
  | seg :: rest, m =>
    match segKV seg with
    | some kv => parseQuerySegs rest (valuesAdd m kv.1 kv.2)
    | none => parseQuerySegs rest m

/-- Go `url.ParseQuery` (as used by `Request.URL.Query()`, which keeps the
partially parsed map and discards the error). -/
def ParseQuery (s : Str) : Values := parseQuerySegs (splitOnCh '&' s) []

/-- Byte-wise string order used by the key sort inside `Values.Encode`. -/
def strLeB : Str → Str → Bool
  | [], _ => true
  | _ :: _, [] => false
  | a :: as, b :: bs =>
    if a.toNat < b.toNat then true
    else if b.toNat < a.toNat then false
    else strLeB as bs

/-- The sorted-keys traversal order of `Values.Encode`. -/
def sortPairs (m : Values) : Values :=
  List.insertionSort (fun x y => strLeB x.1 y.1 = true) m

/-- The `k=v` segments one key contributes to `Values.Encode`. -/
def encodePair (kv : Str × List Str) : List Str :=
  kv.2.map (fun v => queryEscape kv.1 ++ '=' :: queryEscape v)

/-- Segments contributed by a pair list, in order. -/
def concatPairSegs : Values → List Str
  | [] => []
  | kv :: rest => encodePair kv ++ concatPairSegs rest

/-- All `k=v` segments of `Values.Encode`, keys sorted. -/
def encodePairs (m : Values) : List Str := concatPairSegs (sortPairs m)

/-- Go `Values.Encode`. -/
def valuesEncode (m : Values) : Str := joinCh '&' (encodePairs m)

/-- The scrape-timeout header and query-string key. -/
def scrapeTimeoutKey : Str := ("x-prometheus-scrape-timeout-seconds").data

/-- The `strconv.Atoi`-with-default-10 step both legs perform on the
scrape-timeout value (header on the bridge, query string on the responder). -/
def scrapeTimeoutSecs (s : Str) : Int :=
  match Atoi s with
  | some v => v
  | none => 10

/-- Occurrences of a key in an encoded query string: the number of
`&`-separated segments whose part before the first `=` is that key. -/
def countKeyOcc (s key : Str) : Nat :=
  (splitOnCh '&' s).countP (fun seg => decide ((cutEq seg).1 = key))

/-- The outbound bus payload built by `ProxyRequestHandler`: the parsed
original query with the scrape timeout `Add`ed, re-encoded. -/
def buildPayload (rawQuery : Str) (t : Int) : Str :=
  valuesEncode (valuesAdd (ParseQuery rawQuery) scrapeTimeoutKey (Itoa t))

/-- The values a run of `url.ParseQuery` appends for one key while
processing the given segments, in order. -/
def segContribs (key : Str) : List Str → List Str
  | [] => []
  | seg :: rest =>
    (match segKV seg with
     | some kv => if kv.1 = key then [kv.2] else []
     | none => []) ++ segContribs key rest

/-- Concatenated value slices bound to a key across a pair list, in
order. -/
def pairContrib (key : Str) : Values → List Str
  | [] => []
  | kv :: rest => (if kv.1 = key then kv.2 else []) ++ pairContrib key rest

/-- A blocking bus request as issued by `nc.Request`. -/
structure BusRequest where
  subject : Str
  payload : Str
  timeoutNs : Int
deriving DecidableEq

/-- Outcome of `nc.Request` as observed by the handler: reply data, or an
error together with the value of `nc.LastError()` at that moment. -/
inductive BusReply where
  | ok (data : Str)
  | err (lastError : Option Str)
deriving DecidableEq

/-- What the proxy handler does to its HTTP response writer, or the
process-terminating `logger.Fatal`. -/
inductive ProxyStep where
  | fatal (msg : Str)
  | respond (status : Nat) (contentType : Option Str) (body : Str)
deriving DecidableEq

/-- Result of one `ProxyRequestHandler` invocation: the response action and
the bus request issued, if any. -/
structure ProxyResult where
  step : ProxyStep
  busRequest : Option BusRequest
deriving DecidableEq

/-- The inbound HTTP request fields the handler reads. A `Header.Get` on an
absent header is the empty string, as in Go. -/
structure ProxyHttpRequest where
  xForwardedHost : Str
  host : Str
  scrapeTimeoutHeader : Str
  rawQuery : Str

/-- The HTML body written on a missing host. -/
def missingHostBody : Str :=
  ("<html>\n\t\t\t    <head><title>Prometheus NATS Ambassador</title></head>\n\t\t\t\t<body><b>ERROR: missing Host parameter</b></body>\n\t\t\t\t</html>").data

/-- Embedding of `ProxyRequestHandler` (the `/proxy` pull-path bridge).
Mirrors the Go control flow: the switch on `x-forwarded-host` (whose
`default` arm is `logger.Fatal`), the scrape-timeout parse with default 10,
lower-casing, the 502 paths, subject resolution, payload build, and the
blocking bus request whose failure is 503 — or fatal when the NATS
connection reports a last error. -/
def ProxyRequestHandler (base fmt : Str) (r : ProxyHttpRequest)
    (bus : BusRequest → BusReply) : ProxyResult :=
  if r.xForwardedHost ≠ [] then
    { step := .fatal ("No host defined, unable to continue").data, busRequest := none }
  else
    let hostReqRaw := r.host
    let t : Int := scrapeTimeoutSecs r.scrapeTimeoutHeader
    let timeoutNs : Int := t * 1000000000
    let hostReq := toLowerStr hostReqRaw
    if hostReq = [] then
      { step := .respond 502 (some (("text/html").data)) missingHostBody, busRequest := none }
    else
      match resolveSubject base fmt hostReq with
      | .error _ => { step := .respond 502 none [], busRequest := none }
      | .ok subj =>
        let req : BusRequest :=
          { subject := subj, payload := buildPayload r.rawQuery t, timeoutNs := timeoutNs }
        { step :=
            match bus req with
            | .err (some lastMsg) =>
              .fatal (("FATAL: ").data ++ lastMsg ++ (" last error for request").data)
            | .err none => .respond 503 none []
            | .ok data => .respond 200 (some (("text/plain").data)) data,
          busRequest := some req }

/-- The outbound HTTP GET issued by the responder (`http.NewRequest` plus
the client timeout). -/
structure OutboundGet where
  url : Str
  contentType : Str
  timeoutNs : Int
deriving DecidableEq

deriving instance DecidableEq for Except

/-- An HTTP response whose body read (`io.ReadAll`) may itself fail. -/
structure HttpResponse where
  status : Nat
  body : Except Unit Str
deriving DecidableEq

/-- Embedding of `ProxyPrometheusRequest` (the bus-side responder): reject
an empty topic, parse the payload as a query string, pull out the scrape
timeout (default 10), re-encode the rest onto the route URL, GET with the
timeout as the client timeout, and surface any failure as an error. The
only deviation: `http.NewRequest` URL-parse failure is not modelled. -/
def ProxyPrometheusRequest (topic urlHost urlParam : Str)
    (doGet : OutboundGet → Except Unit HttpResponse) :
    Option OutboundGet × Except Str Str :=
  if topic = [] then (none, .error ("400 Bad Request no topic").data)
  else
    let p := ParseQuery urlParam
    let timeoutScrape : Int := scrapeTimeoutSecs (valuesGet p scrapeTimeoutKey)
    let p2 := valuesDel p scrapeTimeoutKey
    let g : OutboundGet :=
      { url := urlHost ++ '?' :: valuesEncode p2,
        contentType := ("text/plain").data,
        timeoutNs := timeoutScrape * 1000000000 }
    (some g,
     match doGet g with
     | .error _ => .error ("failed to send HTTP request").data
     | .ok resp =>
       match resp.body with
       | .error _ => .error ("failed to read response body").data
       | .ok b => .ok b)

/-- The NATS subscription callback wrapping the responder (from `main`):
log the error if any, then `msg.Respond` — unconditionally, with the reply
string returned by `ProxyPrometheusRequest` (the empty string on error).
The returned list holds the payload of every `Respond` performed. -/
def exporterCallbackReplies (subject route payload : Str)
    (doGet : OutboundGet → Except Unit HttpResponse) : List Str :=
  [match (ProxyPrometheusRequest subject route payload doGet).2 with
   | .ok r => r
   | .error _ => []]

/-- The push-ingress request fields `RemoteWriteHandler` reads; the body is
behind `io.ReadAll`, which may fail. -/
structure PushRequest where
  method : Str
  contentEncoding : Str
  contentType : Str
  remoteWriteVersion : Str
  body : Except Unit Str
deriving DecidableEq

/-- Result of one `RemoteWriteHandler` invocation: HTTP status written, and
the publish performed on the bus, if any (subject and data). -/
structure PushResult where
  status : Nat
  publish : Option (Str × Str)
deriving DecidableEq

/-- The subject `RemoteWriteHandler` publishes to:
`topicBase + ".encoding." + enc`. -/
def pushSubject (base enc : Str) : Str := base ++ (".encoding.").data ++ enc

/-- Embedding of `RemoteWriteHandler` (the `/api/v1/write` push ingress),
mirroring the Go validation order: method, lower-cased content encoding,
content type, protocol version, body read, empty body, then the publish
whose failure is 500 and success 204. -/
def RemoteWriteHandler (base : Str) (r : PushRequest) (pub : Except Unit Unit) : PushResult :=
  if r.method ≠ ("POST").data then { status := 405, publish := none }
  else
    let enc := toLowerStr r.contentEncoding
    if enc ≠ ("snappy").data ∧ enc ≠ ("zstd").data then { status := 400, publish := none }
    else if r.contentType ≠ ("application/x-protobuf").data then { status := 400, publish := none }
    else if r.remoteWriteVersion ≠ ("0.1.0").data then { status := 400, publish := none }
    else
      match r.body with
      | .error _ => { status := 500, publish := none }
      | .ok data =>
        if data = [] then { status := 400, publish := none }
        else
          match pub with
          | .error _ => { status := 500, publish := some (pushSubject base enc, data) }
          | .ok _ => { status := 204, publish := some (pushSubject base enc, data) }

/-- The outbound HTTP POST the relay forwards through (URL, headers in the
order they are `Set`, body, client timeout). -/
structure RelayPost where
  url : Str
  headers : List (Str × Str)
  body : Str
  timeoutNs : Int
deriving DecidableEq

/-- Embedding of `RelayPrometheusRemoteWrite`: split the subject on `.`,
require two segments, read the trailing `encoding.<tag>` pair (falling back
to `snappy` when the second-to-last segment is not `encoding`), default any
tag other than `snappy`/`zstd` back to `snappy`, abort on a non-`snappy`
resolved tag, otherwise POST with the three protocol headers plus
User-Agent under a 60-second client timeout; non-200/204 upstream statuses
are errors. -/
def RelayPrometheusRemoteWrite (topic remoteWriteURL compressedData userAgent : Str)
    (doPost : RelayPost → Except Unit HttpResponse) :
    Option RelayPost × Except Str Str :=
  match (splitOnCh '.' topic).reverse with
  | encValRaw :: encKeyRaw :: _ =>
    let encVal :=
      if encKeyRaw = ("encoding").data then encValRaw else ("snappy").data
    let encVal2 :=
      if encVal = ("snappy").data then encVal
      else if encVal = ("zstd").data then encVal
      else ("snappy").data
    if encVal2 ≠ ("snappy").data then
      (none, .error ((("Unknown content encoding type ").data) ++ encVal2))
    else
      let post : RelayPost :=
        { url := remoteWriteURL,
          headers := [((("Content-Type").data), (("application/x-protobuf").data)),
                      ((("Content-Encoding").data), encVal2),
                      ((("X-Prometheus-Remote-Write-Version").data), (("0.1.0").data)),
                      ((("User-Agent").data), userAgent)],
          body := compressedData,
          timeoutNs := 60 * 1000000000 }
      (some post,
       match doPost post with
       | .error _ => .error ("failed to send HTTP request").data
       | .ok resp =>
         let responseBody := match resp.body with | .ok b => b | .error _ => []
         if resp.status ≠ 200 ∧ resp.status ≠ 204 then
           .error ((("remote write endpoint returned non-success status ").data) ++ responseBody)
         else .ok [])
  | _ =>
    (none, .error ((("Topic source ").data) ++ topic ++ ((" does not have enough parts to check.").data)))

/-! ### Character and string lemmas -/

theorem charOfNat_toNat {n : Nat} (h1 : 32 ≤ n) (h2 : n ≤ 126) :
    (Char.ofNat n).toNat = n := by
  have hv : n.isValidChar := Or.inl (by omega)
  simp [Char.ofNat, hv, Char.ofNatAux, Char.toNat, UInt32.toNat, BitVec.toNat_ofNat]

theorem lowerChar_toNat (c : Char) :
    (lowerChar c).toNat = if 65 ≤ c.toNat ∧ c.toNat ≤ 90 then c.toNat + 32 else c.toNat := by
  unfold lowerChar
  by_cases h : 65 ≤ c.toNat ∧ c.toNat ≤ 90
  · rw [if_pos h, if_pos h]
    exact charOfNat_toNat (by omega) (by omega)
  · rw [if_neg h, if_neg h]

theorem lowerChar_idem (c : Char) : lowerChar (lowerChar c) = lowerChar c := by
  have hnot : ¬(65 ≤ (lowerChar c).toNat ∧ (lowerChar c).toNat ≤ 90) := by
    rw [lowerChar_toNat]
    by_cases h : 65 ≤ c.toNat ∧ c.toNat ≤ 90
    · rw [if_pos h]; omega
    · rw [if_neg h]; omega
  have hstep : lowerChar (lowerChar c) =
      if 65 ≤ (lowerChar c).toNat ∧ (lowerChar c).toNat ≤ 90 then
        Char.ofNat ((lowerChar c).toNat + 32)
      else lowerChar c := rfl
  rw [hstep, if_neg hnot]

theorem toLowerStr_idem (s : Str) : toLowerStr (toLowerStr s) = toLowerStr s := by
  unfold toLowerStr
  rw [List.map_map]
  exact List.map_congr_left (fun c _ => lowerChar_idem c)

theorem lowerChar_eq_colon {c : Char} (h : lowerChar c = ':') : c = ':' := by
  by_cases hc : 65 ≤ c.toNat ∧ c.toNat ≤ 90
  · exfalso
    have ht : (lowerChar c).toNat = c.toNat + 32 := by rw [lowerChar_toNat, if_pos hc]
    rw [h] at ht
    have hcol : (':').toNat = 58 := by decide
    omega
  · have he : lowerChar c = c := by unfold lowerChar; rw [if_neg hc]
    rw [he] at h
    exact h

theorem colon_not_mem_toLowerStr {s : Str} (h : ':' ∉ s) : ':' ∉ toLowerStr s := by
  intro hm
  obtain ⟨c, hc, he⟩ := List.mem_map.mp hm
  exact h (lowerChar_eq_colon he ▸ hc)

theorem splitOnCh_ne_nil (sep : Char) (s : Str) : splitOnCh sep s ≠ [] := by
  cases s with
  | nil => simp [splitOnCh]
  | cons c rest =>
    unfold splitOnCh
    cases h : splitOnCh sep rest with
    | nil => simp
    | cons a as => by_cases hc : c = sep <;> simp [hc]

theorem splitOnCh_not_mem {sep : Char} {s : Str} (h : sep ∉ s) : splitOnCh sep s = [s] := by
  induction s with
  | nil => rfl
  | cons c rest ih =>
    have hc : c ≠ sep := fun he => h (he ▸ List.mem_cons_self c rest)
    have hr : sep ∉ rest := fun hm => h (List.mem_cons_of_mem _ hm)
    simp only [splitOnCh]
    rw [ih hr]
    simp [hc]

theorem splitOnCh_append (sep : Char) (a b : Str) :
    splitOnCh sep (a ++ sep :: b) = splitOnCh sep a ++ splitOnCh sep b := by
  induction a with
  | nil =>
    simp only [List.nil_append, splitOnCh]
    cases h : splitOnCh sep b with
    | nil => exact absurd h (splitOnCh_ne_nil sep b)
    | cons s ss => simp
  | cons c a ih =>
    simp only [List.cons_append, splitOnCh, List.append_eq]
    rw [ih]
    cases h : splitOnCh sep a with
    | nil => exact absurd h (splitOnCh_ne_nil sep a)
    | cons s ss =>
      by_cases hc : c = sep <;> simp [hc]

theorem splitOnCh_joinCh {sep : Char} {segs : List Str}
    (hne : segs ≠ []) (hfree : ∀ seg ∈ segs, sep ∉ seg) :
    splitOnCh sep (joinCh sep segs) = segs := by
  induction segs with
  | nil => exact absurd rfl hne
  | cons s rest ih =>
    cases rest with
    | nil => exact splitOnCh_not_mem (hfree s (by simp))
    | cons s2 rest2 =>
      have hj : joinCh sep (s :: s2 :: rest2) = s ++ sep :: joinCh sep (s2 :: rest2) := rfl
      rw [hj, splitOnCh_append, splitOnCh_not_mem (hfree s (by simp)),
        ih (by simp) (fun seg hm => hfree seg (List.mem_cons_of_mem _ hm))]
      rfl

/-! ### C7: subject resolution -/

/-- C7: subject resolution is (by construction of `resolve`, a Lean
function) total and deterministic; it is case-insensitive, and on
`Target1.Example.com:9100` under the default base it yields the three
spec-mandated subjects for the `mod`, `fwd` and `rev` modes. -/
theorem c7_resolve_subject :
    (∀ hostPort fmt, resolve (toLowerStr hostPort) fmt = resolve hostPort fmt) ∧
    resolve (("Target1.Example.com:9100").data) (("mod").data)
      = .ok (("io.prometheus.exporter.target1_example_com.9100").data) ∧
    resolve (("Target1.Example.com:9100").data) (("fwd").data)
      = .ok (("io.prometheus.exporter.target1.example.com.9100").data) ∧
    resolve (("Target1.Example.com:9100").data) (("rev").data)
      = .ok (("io.prometheus.exporter.com.example.target1.9100").data) := by
  refine ⟨fun hostPort fmt => ?_, rfl, rfl, rfl⟩
  unfold resolve
  rw [toLowerStr_idem]

/-! ### C1: host-identity determination -/

/-- C1: evaluating `ProxyRequestHandler` at a request that carries an
`x-forwarded-host` header shows the handler calling `logger.Fatal`
(the `default` arm of the switch) instead of using the header value; with
the header absent and an empty `Host`, the 502 HTML diagnostic is
returned with no bus interaction. -/
theorem c1_forwarded_host_fatal :
    ProxyRequestHandler defaultTopicBase defaultTopicFmt
      { xForwardedHost := ("target1.example.com:9100").data,
        host := ("target1.example.com:9100").data,
        scrapeTimeoutHeader := [], rawQuery := [] }
      (fun _ => .ok []) =
      { step := .fatal (("No host defined, unable to continue").data), busRequest := none } ∧
    ProxyRequestHandler defaultTopicBase defaultTopicFmt
      { xForwardedHost := [], host := [], scrapeTimeoutHeader := [], rawQuery := [] }
      (fun _ => .ok []) =
      { step := .respond 502 (some (("text/html").data)) missingHostBody,
        busRequest := none } :=
  ⟨rfl, rfl⟩

/-! ### C4: missing port -/

theorem lastIdx_eq_none {b : Char} {s : Str} (h : b ∉ s) : lastIdx b s = none := by
  induction s with
  | nil => rfl
  | cons c rest ih =>
    have hc : c ≠ b := fun he => h (he ▸ List.mem_cons_self c rest)
    have hr : b ∉ rest := fun hm => h (List.mem_cons_of_mem _ hm)
    simp only [lastIdx]
    rw [ih hr]
    simp [hc]

theorem splitHostPort_no_colon {s : Str} (h : ':' ∉ s) :
    SplitHostPort s = .error missingPortMsg := by
  unfold SplitHostPort
  rw [lastIdx_eq_none h]

theorem renderHostName_colon (fmt : Str) : renderHostName fmt [':'] = [':'] := by
  unfold renderHostName
  by_cases h1 : fmt = ("rev").data
  · rw [if_pos h1]; rfl
  · rw [if_neg h1]
    by_cases h2 : fmt = ("fwd").data
    · rw [if_pos h2]; rfl
    · rw [if_neg h2]; rfl

/-- C4 counterexample: a pull request whose lower-cased host has no port
(here `localhost`) is answered 502 with no bus interaction, and no subject
is ever resolved (`resolveSubject` fails with Go's missing-port error) —
the claimed whole-input-host/port-80 fallback does not happen. -/
theorem c4_missing_port_counterexample :
    ProxyRequestHandler defaultTopicBase defaultTopicFmt
      { xForwardedHost := [], host := ("localhost").data,
        scrapeTimeoutHeader := [], rawQuery := [] }
      (fun _ => .ok []) =
      { step := .respond 502 none [], busRequest := none } ∧
    resolveSubject defaultTopicBase defaultTopicFmt (("localhost").data)
      = .error missingPortMsg :=
  ⟨rfl, rfl⟩

/-- C4 amended: when the host string has no colon at all (no port
supplied), `net.SplitHostPort` fails and the handler answers 502 without
resolving a subject or touching the bus; the whole-input-host/port-80
fallback only fires when the split succeeds with both halves empty, i.e.
on the input `:`, which does proceed to a bus request on subject
`base + ":" + "." + "80"`. -/
theorem c4_missing_port_502 :
    (∀ base fmt hdr raw host bus, host ≠ [] → ':' ∉ host →
      ProxyRequestHandler base fmt
        { xForwardedHost := [], host := host, scrapeTimeoutHeader := hdr, rawQuery := raw } bus
        = { step := .respond 502 none [], busRequest := none }) ∧
    (∀ base fmt hdr raw bus,
      (ProxyRequestHandler base fmt
        { xForwardedHost := [], host := [':'], scrapeTimeoutHeader := hdr, rawQuery := raw }
        bus).busRequest.map BusRequest.subject
        = some (base ++ ':' :: '.' :: ("80").data)) := by
  constructor
  · intro base fmt hdr raw host bus hne hcol
    have hlne : toLowerStr host ≠ [] := by
      unfold toLowerStr
      simp only [ne_eq, List.map_eq_nil_iff]
      exact hne
    have herr : resolveSubject base fmt (toLowerStr host) = .error missingPortMsg := by
      unfold resolveSubject
      rw [splitHostPort_no_colon (colon_not_mem_toLowerStr hcol)]
    simp [ProxyRequestHandler, hlne, herr]
  · intro base fmt hdr raw bus
    have hsub : resolveSubject base fmt (toLowerStr [':'])
        = .ok (base ++ ':' :: '.' :: ("80").data) := by
      have h1 : resolveSubject base fmt (toLowerStr [':'])
          = .ok (base ++ renderHostName fmt [':'] ++ '.' :: ("80").data) := rfl
      rw [h1, renderHostName_colon]
      simp
    have hlne : toLowerStr [':'] ≠ [] := by simp [toLowerStr]
    simp [ProxyRequestHandler, hlne, hsub]

/-- C4 witness: the amended statement applied at `localhost` under the
default configuration. -/
theorem c4_missing_port_502_witness :
    ProxyRequestHandler defaultTopicBase defaultTopicFmt
      { xForwardedHost := [], host := ("localhost").data,
        scrapeTimeoutHeader := ("7").data, rawQuery := ("a=b").data }
      (fun _ => .ok []) =
      { step := .respond 502 none [], busRequest := none } :=
  c4_missing_port_502.1 defaultTopicBase defaultTopicFmt
    (("7").data) (("a=b").data) (("localhost").data) (fun _ => .ok [])
    (by decide) (by decide)

/-! ### C6 and C3: relay encoding dispatch -/

theorem splitOnCh_reverse_suffix (pre b1 b2 : Str) (h1 : '.' ∉ b1) (h2 : '.' ∉ b2) :
    (splitOnCh '.' (pre ++ '.' :: (b1 ++ '.' :: b2))).reverse
      = b2 :: b1 :: (splitOnCh '.' pre).reverse := by
  rw [splitOnCh_append, splitOnCh_append, splitOnCh_not_mem h1, splitOnCh_not_mem h2]
  simp

/-- C6: a relayed message whose subject ends in `.encoding.zstd` is
rejected with the unsupported-encoding error and no forward attempt, while
one ending in `.encoding.snappy` is forwarded by HTTP POST carrying
exactly the three protocol headers plus the User-Agent, with the payload
as body, under the fixed 60-second client timeout. -/
theorem c6_relay_encoding_dispatch (pre url data ua : Str)
    (doPost : RelayPost → Except Unit HttpResponse) :
    RelayPrometheusRemoteWrite (pre ++ (".encoding.zstd").data) url data ua doPost
      = (none, .error (("Unknown content encoding type zstd").data)) ∧
    (RelayPrometheusRemoteWrite (pre ++ (".encoding.snappy").data) url data ua doPost).1
      = some { url := url,
               headers := [((("Content-Type").data), (("application/x-protobuf").data)),
                           ((("Content-Encoding").data), (("snappy").data)),
                           ((("X-Prometheus-Remote-Write-Version").data), (("0.1.0").data)),
                           ((("User-Agent").data), ua)],
               body := data,
               timeoutNs := 60 * 1000000000 } := by
  have hz : pre ++ (".encoding.zstd").data
      = pre ++ '.' :: ((("encoding").data) ++ '.' :: ("zstd").data) := rfl
  have hs : pre ++ (".encoding.snappy").data
      = pre ++ '.' :: ((("encoding").data) ++ '.' :: ("snappy").data) := rfl
  constructor
  · unfold RelayPrometheusRemoteWrite
    rw [hz, splitOnCh_reverse_suffix pre _ _ (by decide) (by decide)]
    rfl
  · unfold RelayPrometheusRemoteWrite
    rw [hs, splitOnCh_reverse_suffix pre _ _ (by decide) (by decide)]
    rfl

/-- C3 counterexample: a relayed message whose subject ends in
`.encoding.gzip` (a tag that is neither `snappy` nor `zstd`) is not
rejected: the relay silently defaults the tag to `snappy` and makes a
forward attempt carrying `Content-Encoding: snappy`. -/
theorem c3_unsupported_encoding_counterexample :
    RelayPrometheusRemoteWrite ("a.encoding.gzip").data ("http://upstream/write").data
        ("payload").data ("agent").data (fun _ => .ok { status := 200, body := .ok [] })
      = (some { url := ("http://upstream/write").data,
                headers := [((("Content-Type").data), (("application/x-protobuf").data)),
                            ((("Content-Encoding").data), (("snappy").data)),
                            ((("X-Prometheus-Remote-Write-Version").data), (("0.1.0").data)),
                            ((("User-Agent").data), ("agent").data)],
                body := ("payload").data,
                timeoutNs := 60 * 1000000000 }, .ok []) := rfl

/-- C3 amended: on the relay leg only the tag `zstd` produces the
unsupported-encoding abort with no forward attempt; a trailing
`encoding.<tag>` pair with any tag other than `snappy` and `zstd` is
defaulted back to `snappy` and the payload is forwarded with
`Content-Encoding: snappy`. -/
theorem c3_only_zstd_aborts (pre url data ua tag : Str)
    (doPost : RelayPost → Except Unit HttpResponse)
    (hdot : '.' ∉ tag) (hsn : tag ≠ ("snappy").data) (hzs : tag ≠ ("zstd").data) :
    (RelayPrometheusRemoteWrite (pre ++ '.' :: ((("encoding").data) ++ '.' :: tag))
        url data ua doPost).1
      = some { url := url,
               headers := [((("Content-Type").data), (("application/x-protobuf").data)),
                           ((("Content-Encoding").data), (("snappy").data)),
                           ((("X-Prometheus-Remote-Write-Version").data), (("0.1.0").data)),
                           ((("User-Agent").data), ua)],
               body := data,
               timeoutNs := 60 * 1000000000 } ∧
    RelayPrometheusRemoteWrite (pre ++ '.' :: ((("encoding").data) ++ '.' :: ("zstd").data))
        url data ua doPost
      = (none, .error (("Unknown content encoding type zstd").data)) := by
  constructor
  · unfold RelayPrometheusRemoteWrite
    rw [splitOnCh_reverse_suffix pre _ _ (by decide) hdot]
    simp [hsn, hzs]
  · unfold RelayPrometheusRemoteWrite
    rw [splitOnCh_reverse_suffix pre _ _ (by decide) (by decide)]
    rfl

/-- C3 witness: the amended statement applied to a `.encoding.gzip`
subject. -/
theorem c3_only_zstd_aborts_witness :
    (RelayPrometheusRemoteWrite ("a.encoding.gzip").data ("http://upstream/write").data
        ("payload").data ("agent").data (fun _ => .ok { status := 200, body := .ok [] })).1
      = some { url := ("http://upstream/write").data,
               headers := [((("Content-Type").data), (("application/x-protobuf").data)),
                           ((("Content-Encoding").data), (("snappy").data)),
                           ((("X-Prometheus-Remote-Write-Version").data), (("0.1.0").data)),
                           ((("User-Agent").data), ("agent").data)],
               body := ("payload").data,
               timeoutNs := 60 * 1000000000 } :=
  (c3_only_zstd_aborts ("a").data ("http://upstream/write").data ("payload").data
    ("agent").data ("gzip").data (fun _ => .ok { status := 200, body := .ok [] })
    (by decide) (by decide) (by decide)).1

/-! ### C10: push publish subject -/

/-- C10: the ingress publish subject is exactly
`base ++ ".encoding." ++ enc` (with `enc` the lower-cased Content-Encoding,
by the handler-link conjunct); it is strictly longer than, and therefore
never equal to, the bare base subject the relay subscribes to; and under
the default base, which ends in a dot, the published snappy subject is
`io.prometheus.exporter..encoding.snappy`, which contains two consecutive
dots. -/
theorem c10_push_subject :
    (∀ base enc : Str, pushSubject base enc = base ++ (".encoding.").data ++ enc ∧
        base.length < (pushSubject base enc).length ∧ pushSubject base enc ≠ base) ∧
    pushSubject defaultTopicBase (("snappy").data)
      = ("io.prometheus.exporter..encoding.snappy").data ∧
    List.IsInfix ['.', '.'] (("io.prometheus.exporter..encoding.snappy").data) ∧
    (∀ base (r : PushRequest) pub s d,
      (RemoteWriteHandler base r pub).publish = some (s, d) →
        s = pushSubject base (toLowerStr r.contentEncoding)) := by
  have hlen : ∀ base enc : Str,
      (pushSubject base enc).length = base.length + 10 + enc.length := by
    intro base enc
    have h10 : (((".encoding.").data : Str)).length = 10 := rfl
    simp [pushSubject, List.length_append, h10]
    omega
  refine ⟨fun base enc => ⟨rfl, ?_, ?_⟩, rfl, ?_, ?_⟩
  · rw [hlen]; omega
  · intro h
    have hl := congrArg List.length h
    rw [hlen] at hl
    omega
  · exact ⟨("io.prometheus.exporter").data, ("encoding.snappy").data, rfl⟩
  · intro base r pub s d h
    simp only [RemoteWriteHandler] at h
    repeat' split at h
    all_goals simp_all

/-- C10 witness: the general conjuncts applied at the default base and the
`snappy` encoding, plus the handler link at a concrete accepted request. -/
theorem c10_push_subject_witness :
    pushSubject defaultTopicBase (("snappy").data)
        = defaultTopicBase ++ (".encoding.").data ++ ("snappy").data ∧
    defaultTopicBase.length < (pushSubject defaultTopicBase (("snappy").data)).length ∧
    pushSubject defaultTopicBase (("snappy").data) ≠ defaultTopicBase ∧
    (RemoteWriteHandler defaultTopicBase
        { method := ("POST").data, contentEncoding := ("snappy").data,
          contentType := ("application/x-protobuf").data,
          remoteWriteVersion := ("0.1.0").data, body := .ok ("d").data }
        (.ok ())).publish = some (((("io.prometheus.exporter..encoding.snappy").data : Str)),
          ("d").data) := by
  obtain ⟨hall, _, _, hlink⟩ := c10_push_subject
  obtain ⟨h1, h2, h3⟩ := hall defaultTopicBase (("snappy").data)
  exact ⟨h1, h2, h3, rfl⟩

/-! ### C9: push ingress validation -/

/-- C9: for a push request whose body reads successfully, a bus publish is
attempted exactly when the request is a POST with an accepted (lower-cased)
Content-Encoding, the exact protobuf Content-Type, the exact protocol
version, and a non-empty body; a non-POST yields 405 with no publish, any
header mismatch or empty body yields 400 with no publish, and on an
attempted publish the status is 204 on success and 500 on failure. -/
theorem c9_remote_write_validation (base method ce ct ver bytes : Str)
    (pub : Except Unit Unit) :
    ((RemoteWriteHandler base ⟨method, ce, ct, ver, .ok bytes⟩ pub).publish ≠ none ↔
      (method = ("POST").data ∧
       (toLowerStr ce = ("snappy").data ∨ toLowerStr ce = ("zstd").data) ∧
       ct = ("application/x-protobuf").data ∧ ver = ("0.1.0").data ∧ bytes ≠ [])) ∧
    (method ≠ ("POST").data →
      RemoteWriteHandler base ⟨method, ce, ct, ver, .ok bytes⟩ pub
        = { status := 405, publish := none }) ∧
    (method = ("POST").data →
      ¬((toLowerStr ce = ("snappy").data ∨ toLowerStr ce = ("zstd").data) ∧
        ct = ("application/x-protobuf").data ∧ ver = ("0.1.0").data ∧ bytes ≠ []) →
      RemoteWriteHandler base ⟨method, ce, ct, ver, .ok bytes⟩ pub
        = { status := 400, publish := none }) ∧
    ((method = ("POST").data ∧
      (toLowerStr ce = ("snappy").data ∨ toLowerStr ce = ("zstd").data) ∧
      ct = ("application/x-protobuf").data ∧ ver = ("0.1.0").data ∧ bytes ≠ []) →
      pub = .ok () →
      RemoteWriteHandler base ⟨method, ce, ct, ver, .ok bytes⟩ pub
        = { status := 204, publish := some (pushSubject base (toLowerStr ce), bytes) }) ∧
    ((method = ("POST").data ∧
      (toLowerStr ce = ("snappy").data ∨ toLowerStr ce = ("zstd").data) ∧
      ct = ("application/x-protobuf").data ∧ ver = ("0.1.0").data ∧ bytes ≠ []) →
      pub = .error () →
      RemoteWriteHandler base ⟨method, ce, ct, ver, .ok bytes⟩ pub
        = { status := 500, publish := some (pushSubject base (toLowerStr ce), bytes) }) := by
  rcases pub with u | u <;> cases u <;>
  by_cases h1 : method = ("POST").data <;>
  by_cases h2s : toLowerStr ce = ("snappy").data <;>
  by_cases h2z : toLowerStr ce = ("zstd").data <;>
  by_cases h3 : ct = ("application/x-protobuf").data <;>
  by_cases h4 : ver = ("0.1.0").data <;>
  by_cases h5 : bytes = [] <;>
  simp_all [RemoteWriteHandler, pushSubject]

/-- C9 witness: the validation theorem instantiated at an accepted request
(204, published) and extracting the no-publish evaluation at a gzip
encoding. -/
theorem c9_remote_write_validation_witness :
    RemoteWriteHandler defaultTopicBase
        ⟨("POST").data, ("snappy").data, ("application/x-protobuf").data,
         ("0.1.0").data, .ok ("d").data⟩ (.ok ())
      = { status := 204,
          publish := some (pushSubject defaultTopicBase (("snappy").data), ("d").data) } ∧
    RemoteWriteHandler defaultTopicBase
        ⟨("POST").data, ("gzip").data, ("application/x-protobuf").data,
         ("0.1.0").data, .ok ("d").data⟩ (.ok ())
      = { status := 400, publish := none } := by
  constructor
  · exact (c9_remote_write_validation defaultTopicBase (("POST").data) (("snappy").data)
      (("application/x-protobuf").data) (("0.1.0").data) (("d").data) (.ok ())).2.2.2.1
      ⟨rfl, Or.inl rfl, rfl, rfl, by decide⟩ rfl
  · exact (c9_remote_write_validation defaultTopicBase (("POST").data) (("gzip").data)
      (("application/x-protobuf").data) (("0.1.0").data) (("d").data) (.ok ())).2.2.1
      rfl (by intro h; exact absurd h.1 (by decide))

/-! ### C2: responder failure behaviour -/

/-- C2 counterexample: when the local HTTP GET fails, the responder does
surface an error to its caller, but the subscription callback still calls
`msg.Respond` — with the empty reply payload — so the bridge receives an
empty-bodied reply instead of observing a bus timeout. The claimed
"no bus reply at all" (reply list `[]`) is refuted: the reply list is
`[""]`. -/
theorem c2_responder_failure_counterexample :
    (ProxyPrometheusRequest ("io.prometheus.exporter.target1_example_com.9100").data
        ("http://localhost:9100/metrics").data ("a=b").data (fun _ => .error ())).2
      = .error ("failed to send HTTP request").data ∧
    exporterCallbackReplies ("io.prometheus.exporter.target1_example_com.9100").data
        ("http://localhost:9100/metrics").data ("a=b").data (fun _ => .error ())
      = [[]] ∧
    ([[]] : List Str) ≠ [] :=
  ⟨rfl, rfl, by decide⟩

/-- C2 amended: on a failing local GET the responder surfaces an error to
its caller, and the subscription callback logs it and still sends exactly
one bus reply, whose payload is the empty string — the bridge side
receives an empty reply rather than a bus timeout. -/
theorem c2_responder_failure_replies_empty (topic route payload : Str)
    (doGet : OutboundGet → Except Unit HttpResponse)
    (hfail : ∀ g, doGet g = .error ()) :
    (∃ e, (ProxyPrometheusRequest topic route payload doGet).2 = .error e) ∧
    exporterCallbackReplies topic route payload doGet = [[]] := by
  unfold exporterCallbackReplies ProxyPrometheusRequest
  by_cases ht : topic = []
  · simp [ht]
  · simp [ht, hfail]

/-- C2 witness: the amended statement at a concrete failing GET. -/
theorem c2_responder_failure_witness :
    (∃ e, (ProxyPrometheusRequest ("t").data ("http://localhost/metrics").data ("a=b").data
        (fun _ => .error ())).2 = .error e) ∧
    exporterCallbackReplies ("t").data ("http://localhost/metrics").data ("a=b").data
        (fun _ => .error ()) = [[]] :=
  c2_responder_failure_replies_empty ("t").data ("http://localhost/metrics").data
    ("a=b").data (fun _ => .error ()) (fun _ => rfl)

/-! ### Query-escaping lemmas -/

theorem upperHexDigit_toNat (n : Nat) :
    (48 ≤ (upperHexDigit n).toNat ∧ (upperHexDigit n).toNat ≤ 57) ∨
    (65 ≤ (upperHexDigit n).toNat ∧ (upperHexDigit n).toNat ≤ 70) := by
  unfold upperHexDigit
  have h16 : n % 16 < 16 := Nat.mod_lt _ (by omega)
  by_cases h : n % 16 < 10
  · left
    rw [if_pos h, charOfNat_toNat (by omega) (by omega)]
    omega
  · right
    rw [if_neg h, charOfNat_toNat (by omega) (by omega)]
    omega

theorem not_mem_queryEscape {d : Char} (hd : shouldEscape d = true)
    (hplus : d ≠ '+') (hpct : d ≠ '%')
    (hdig : d.toNat < 48 ∨ (57 < d.toNat ∧ d.toNat < 65) ∨ 70 < d.toNat)
    (s : Str) : d ∉ queryEscape s := by
  induction s with
  | nil => simp [queryEscape, flatMapStr]
  | cons c rest ih =>
    intro hmem
    have hmem2 : d ∈ queryEscapeChar c ++ queryEscape rest := hmem
    rcases List.mem_append.mp hmem2 with hm | hm
    · unfold queryEscapeChar at hm
      by_cases h1 : c = ' '
      · rw [if_pos h1] at hm
        simp at hm
        exact hplus hm
      · rw [if_neg h1] at hm
        by_cases h2 : shouldEscape c
        · rw [if_pos h2] at hm
          simp at hm
          rcases hm with h | h | h
          · exact hpct h
          · rcases upperHexDigit_toNat (c.toNat / 16) with ⟨a, b⟩ | ⟨a, b⟩ <;>
              (rw [← h] at a b; omega)
          · rcases upperHexDigit_toNat c.toNat with ⟨a, b⟩ | ⟨a, b⟩ <;>
              (rw [← h] at a b; omega)
        · rw [if_neg h2] at hm
          simp at hm
          rw [hm] at hd
          exact h2 hd
    · exact ih hm

theorem amp_not_mem_queryEscape (s : Str) : '&' ∉ queryEscape s :=
  not_mem_queryEscape (by decide) (by decide) (by decide) (by decide) s

theorem eqch_not_mem_queryEscape (s : Str) : '=' ∉ queryEscape s :=
  not_mem_queryEscape (by decide) (by decide) (by decide) (by decide) s

theorem semi_not_mem_queryEscape (s : Str) : ';' ∉ queryEscape s :=
  not_mem_queryEscape (by decide) (by decide) (by decide) (by decide) s

theorem queryEscape_of_plain {s : Str} (h : ∀ c ∈ s, shouldEscape c = false) :
    queryEscape s = s := by
  induction s with
  | nil => rfl
  | cons c rest ih =>
    have hc : shouldEscape c = false := h c (List.mem_cons_self c rest)
    have hsp : c ≠ ' ' := by
      intro he
      rw [he] at hc
      exact absurd hc (by decide)
    show queryEscapeChar c ++ queryEscape rest = c :: rest
    unfold queryEscapeChar
    rw [if_neg hsp, if_neg (by rw [hc]; exact Bool.false_ne_true)]
    rw [ih (fun x hx => h x (List.mem_cons_of_mem _ hx))]
    rfl

theorem queryEscape_eq_plain {s t : Str}
    (ht : ∀ c ∈ t, shouldEscape c = false) (h : queryEscape s = t) : s = t := by
  induction s generalizing t with
  | nil =>
    have : ([] : Str) = t := h
    exact this
  | cons c rest ih =>
    have hstep : queryEscapeChar c ++ queryEscape rest = t := h
    by_cases h1 : c = ' '
    · exfalso
      rw [h1] at hstep
      have hplus : '+' ∈ t := by
        rw [← hstep]
        exact List.mem_append.mpr (Or.inl (by simp [queryEscapeChar]))
      have := ht '+' hplus
      exact absurd this (by decide)
    · by_cases h2 : shouldEscape c
      · exfalso
        have hpct : '%' ∈ t := by
          rw [← hstep]
          refine List.mem_append.mpr (Or.inl ?_)
          simp [queryEscapeChar, h1, h2]
        have := ht '%' hpct
        exact absurd this (by decide)
      · have hc : queryEscapeChar c = [c] := by
          unfold queryEscapeChar
          rw [if_neg h1, if_neg h2]
        rw [hc] at hstep
        cases t with
        | nil => exact absurd hstep (by simp)
        | cons c2 t2 =>
          have hcc : c = c2 ∧ queryEscape rest = t2 := by
            have := List.cons.injEq c (queryEscape rest) c2 t2 ▸ hstep
            exact ⟨this.1, this.2⟩
          rw [hcc.1]
          rw [ih (fun x hx => ht x (List.mem_cons_of_mem _ hx)) hcc.2]

theorem cutEq_append {a : Str} (b : Str) (ha : '=' ∉ a) : cutEq (a ++ '=' :: b) = (a, b) := by
  induction a with
  | nil => simp [cutEq]
  | cons c a ih =>
    have hc : c ≠ '=' := fun he => ha (he ▸ List.mem_cons_self c a)
    have ha2 : '=' ∉ a := fun hm => ha (List.mem_cons_of_mem _ hm)
    simp only [List.cons_append, cutEq, List.append_eq, ih ha2]
    simp [hc]

/-! ### Counting key occurrences across Values.Encode -/

theorem countP_encodePair (key : Str) (hkey : ∀ c ∈ key, shouldEscape c = false)
    (kv : Str × List Str) :
    (encodePair kv).countP (fun seg => decide ((cutEq seg).1 = key))
      = if kv.1 = key then kv.2.length else 0 := by
  unfold encodePair
  rw [List.countP_map]
  have hcut : ∀ v : Str,
      (cutEq (queryEscape kv.1 ++ '=' :: queryEscape v)).1 = queryEscape kv.1 := by
    intro v
    rw [cutEq_append _ (eqch_not_mem_queryEscape kv.1)]
  by_cases hk : kv.1 = key
  · rw [if_pos hk]
    apply List.countP_eq_length.mpr
    intro v _
    simp only [Function.comp_apply, hcut v]
    rw [hk, queryEscape_of_plain hkey]
    simp
  · rw [if_neg hk]
    apply List.countP_eq_zero.mpr
    intro v _
    simp only [Function.comp_apply, hcut v]
    simp only [decide_eq_true_eq]
    intro he
    exact hk (queryEscape_eq_plain hkey he)

theorem countP_concatPairSegs (key : Str) (hkey : ∀ c ∈ key, shouldEscape c = false)
    (m : Values) :
    (concatPairSegs m).countP (fun seg => decide ((cutEq seg).1 = key))
      = (m.map (fun kv => if kv.1 = key then kv.2.length else 0)).sum := by
  induction m with
  | nil => rfl
  | cons kv rest ih =>
    simp only [concatPairSegs, List.countP_append, List.map_cons, List.sum_cons,
      countP_encodePair key hkey, ih]

theorem countP_encodePairs (key : Str) (hkey : ∀ c ∈ key, shouldEscape c = false)
    (m : Values) :
    (encodePairs m).countP (fun seg => decide ((cutEq seg).1 = key))
      = (m.map (fun kv => if kv.1 = key then kv.2.length else 0)).sum := by
  unfold encodePairs sortPairs
  rw [countP_concatPairSegs key hkey]
  exact List.Perm.sum_eq (List.Perm.map _ (List.perm_insertionSort _ m))

theorem amp_not_mem_concatPairSegs {seg : Str} {m : Values}
    (h : seg ∈ concatPairSegs m) : '&' ∉ seg := by
  induction m with
  | nil => simp [concatPairSegs] at h
  | cons kv rest ih =>
    simp only [concatPairSegs] at h
    rcases List.mem_append.mp h with hm | hm
    · obtain ⟨v, hv, hveq⟩ := List.mem_map.mp hm
      rw [← hveq]
      intro hc
      rcases List.mem_append.mp hc with h1 | h1
      · exact amp_not_mem_queryEscape _ h1
      · rcases List.mem_cons.mp h1 with h2 | h2
        · exact absurd h2 (by decide)
        · exact amp_not_mem_queryEscape _ h2
    · exact ih hm

theorem countKeyOcc_joinCh {key : Str} (hne : key ≠ []) {segs : List Str}
    (hfree : ∀ seg ∈ segs, '&' ∉ seg) :
    countKeyOcc (joinCh '&' segs) key
      = segs.countP (fun seg => decide ((cutEq seg).1 = key)) := by
  cases segs with
  | nil =>
    show (splitOnCh '&' (joinCh '&' [])).countP _ = 0
    have h1 : joinCh '&' ([] : List Str) = [] := rfl
    have h2 : splitOnCh '&' ([] : Str) = [[]] := rfl
    rw [h1, h2, List.countP_cons, List.countP_nil]
    have hp : decide ((cutEq ([] : Str)).1 = key) = false := by
      apply decide_eq_false
      intro h
      exact hne h.symm
    simp [hp]
  | cons s ss =>
    unfold countKeyOcc
    rw [splitOnCh_joinCh (by simp) hfree]

theorem countKeyOcc_valuesEncode {key : Str} (hne : key ≠ [])
    (hkey : ∀ c ∈ key, shouldEscape c = false) (m : Values) :
    countKeyOcc (valuesEncode m) key
      = (m.map (fun kv => if kv.1 = key then kv.2.length else 0)).sum := by
  unfold valuesEncode encodePairs
  rw [countKeyOcc_joinCh hne (fun seg hm => amp_not_mem_concatPairSegs hm)]
  rw [countP_concatPairSegs key hkey]
  exact List.Perm.sum_eq (List.Perm.map _ (List.perm_insertionSort _ m))

/-! ### Values bookkeeping -/

theorem sum_zero_of_key_unbound {m : Values} {key : Str}
    (h : key ∉ m.map Prod.fst) :
    (m.map (fun kv => if kv.1 = key then kv.2.length else 0)).sum = 0 := by
  induction m with
  | nil => rfl
  | cons kv rest ih =>
    have h1 : kv.1 ≠ key := by
      intro he
      exact h (by simp [← he])
    have h2 : key ∉ rest.map Prod.fst := fun hm => h (by simp [hm])
    simp [h1, ih h2]

theorem sum_eq_getAll_length {m : Values} {key : Str}
    (hnd : (m.map Prod.fst).Nodup) :
    (m.map (fun kv => if kv.1 = key then kv.2.length else 0)).sum
      = (valuesGetAll m key).length := by
  induction m with
  | nil => rfl
  | cons kv rest ih =>
    simp only [List.map_cons, List.nodup_cons] at hnd
    simp only [List.map_cons, List.sum_cons, valuesGetAll]
    by_cases hk : kv.1 = key
    · rw [if_pos hk, if_pos hk]
      have hu : key ∉ rest.map Prod.fst := hk ▸ hnd.1
      rw [sum_zero_of_key_unbound hu]
      simp
    · rw [if_neg hk, if_neg hk]
      simp [ih hnd.2]

theorem getAll_valuesAdd_same (m : Values) (k v : Str) :
    valuesGetAll (valuesAdd m k v) k = valuesGetAll m k ++ [v] := by
  induction m with
  | nil => simp [valuesAdd, valuesGetAll]
  | cons kv rest ih =>
    by_cases hk : kv.1 = k
    · simp [valuesAdd, valuesGetAll, hk]
    · simp [valuesAdd, valuesGetAll, hk, ih]

theorem getAll_valuesAdd_other {k key : Str} (h : k ≠ key) (m : Values) (v : Str) :
    valuesGetAll (valuesAdd m k v) key = valuesGetAll m key := by
  induction m with
  | nil => simp [valuesAdd, valuesGetAll, h]
  | cons kv rest ih =>
    have hky : key ≠ k := Ne.symm h
    by_cases h1 : kv.1 = k
    · have h2 : kv.1 ≠ key := by rw [h1]; exact h
      simp [valuesAdd, valuesGetAll, h1, h2, h, hky]
    · by_cases h2 : kv.1 = key <;> simp [valuesAdd, valuesGetAll, h1, h2, h, hky, ih]

theorem mem_keys_valuesAdd {x k v : Str} {m : Values} :
    x ∈ (valuesAdd m k v).map Prod.fst ↔ x ∈ m.map Prod.fst ∨ x = k := by
  induction m with
  | nil => simp [valuesAdd]
  | cons kv rest ih =>
    by_cases h1 : kv.1 = k
    · simp [valuesAdd, h1]
      tauto
    · simp [valuesAdd, h1, ih]
      tauto

theorem keys_nodup_valuesAdd {m : Values} (h : (m.map Prod.fst).Nodup) (k v : Str) :
    ((valuesAdd m k v).map Prod.fst).Nodup := by
  induction m with
  | nil => simp [valuesAdd]
  | cons kv rest ih =>
    simp only [List.map_cons, List.nodup_cons] at h
    by_cases h1 : kv.1 = k
    · simp only [valuesAdd, if_pos h1, List.map_cons, List.nodup_cons]
      exact ⟨h.1, h.2⟩
    · simp only [valuesAdd, if_neg h1, List.map_cons, List.nodup_cons]
      refine ⟨?_, ih h.2⟩
      intro hm
      rcases mem_keys_valuesAdd.mp hm with hm2 | hm2
      · exact h.1 hm2
      · exact h1 hm2

theorem keys_nodup_parseQuerySegs (segs : List Str) (m : Values)
    (h : (m.map Prod.fst).Nodup) : ((parseQuerySegs segs m).map Prod.fst).Nodup := by
  induction segs generalizing m with
  | nil => exact h
  | cons seg rest ih =>
    unfold parseQuerySegs
    cases hsk : segKV seg with
    | some kv => exact ih _ (keys_nodup_valuesAdd h kv.1 kv.2)
    | none => exact ih _ h

theorem keys_nodup_ParseQuery (s : Str) : ((ParseQuery s).map Prod.fst).Nodup :=
  keys_nodup_parseQuerySegs _ _ (by simp)

/-! ### C5: re-insertion of the scrape-timeout key -/

/-- C5 counterexample: for the original query string
`x-prometheus-scrape-timeout-seconds=5` (which already contains the key
exactly once), the re-encoded bus payload contains the key twice —
`Values.Add` appends instead of replacing, so re-insertion is not
idempotent. -/
theorem c5_reinsert_counterexample :
    (valuesGetAll (ParseQuery (("x-prometheus-scrape-timeout-seconds=5").data))
        scrapeTimeoutKey).length = 1 ∧
    countKeyOcc (buildPayload (("x-prometheus-scrape-timeout-seconds=5").data) 10)
        scrapeTimeoutKey = 2 ∧ (2 : Nat) ≠ 1 :=
  ⟨rfl, by decide, by decide⟩

/-- C5 amended: re-inserting the scrape-timeout key appends one more
binding: for every original query string the encoded payload contains the
key exactly once more than the parsed original did — so exactly once
precisely when the original query did not already carry the key. -/
theorem c5_reinsert_appends (rawQuery : Str) (t : Int) :
    countKeyOcc (buildPayload rawQuery t) scrapeTimeoutKey
      = (valuesGetAll (ParseQuery rawQuery) scrapeTimeoutKey).length + 1 := by
  unfold buildPayload
  rw [countKeyOcc_valuesEncode (by decide) (by decide)]
  rw [sum_eq_getAll_length (keys_nodup_valuesAdd (keys_nodup_ParseQuery rawQuery) _ _)]
  rw [getAll_valuesAdd_same]
  simp

/-! ### Decimal rendering and parsing roundtrip -/

theorem natToDigitsCore_fuel {n : Nat} :
    ∀ {f1 f2 : Nat}, n < f1 → n < f2 → ∀ acc,
      natToDigitsCore f1 n acc = natToDigitsCore f2 n acc := by
  induction n using Nat.strong_induction_on with
  | _ n ih =>
    intro f1 f2 h1 h2 acc
    match f1, f2 with
    | g1 + 1, g2 + 1 =>
      by_cases hn : n < 10
      · simp [natToDigitsCore, hn]
      · simp only [natToDigitsCore, hn, if_neg]
        have hlt : n / 10 < n := Nat.div_lt_self (by omega) (by omega)
        apply ih (n / 10) hlt <;> omega

theorem natToDigits_step (n : Nat) (acc : Str) :
    natToDigits n acc = if n < 10 then digitChar n :: acc
      else natToDigits (n / 10) (digitChar (n % 10) :: acc) := by
  have hstep : natToDigits n acc
      = if n < 10 then digitChar n :: acc
        else natToDigitsCore n (n / 10) (digitChar (n % 10) :: acc) := rfl
  rw [hstep]
  by_cases h : n < 10
  · rw [if_pos h, if_pos h]
  · rw [if_neg h, if_neg h]
    have hlt : n / 10 < n := Nat.div_lt_self (by omega) (by omega)
    show _ = natToDigitsCore (n / 10 + 1) (n / 10) (digitChar (n % 10) :: acc)
    apply natToDigitsCore_fuel <;> omega

theorem natToDigits_head (n : Nat) (acc : Str) :
    ∃ c rest, natToDigits n acc = c :: rest ∧ 48 ≤ c.toNat ∧ c.toNat ≤ 57 := by
  induction n using Nat.strong_induction_on generalizing acc with
  | _ n ih =>
    rw [natToDigits_step]
    by_cases h : n < 10
    · rw [if_pos h]
      refine ⟨digitChar n, acc, rfl, ?_⟩
      unfold digitChar
      rw [charOfNat_toNat (by omega) (by omega)]
      omega
    · rw [if_neg h]
      exact ih (n / 10) (Nat.div_lt_self (by omega) (by omega)) _

theorem natToDigits_append (n : Nat) (acc : Str) :
    natToDigits n acc = natToDigits n [] ++ acc := by
  induction n using Nat.strong_induction_on generalizing acc with
  | _ n ih =>
    by_cases h : n < 10
    · rw [natToDigits_step, natToDigits_step n, if_pos h, if_pos h]
      rfl
    · have hlt : n / 10 < n := Nat.div_lt_self (by omega) (by omega)
      rw [natToDigits_step, natToDigits_step n, if_neg h, if_neg h,
        ih (n / 10) hlt, ih (n / 10) hlt (digitChar (n % 10) :: [])]
      simp

theorem digitVal_digitChar {d : Nat} (h : d < 10) : digitVal (digitChar d) = some d := by
  unfold digitVal digitChar
  rw [charOfNat_toNat (by omega) (by omega)]
  rw [if_pos (by omega)]
  congr 1
  omega

theorem digitsValAux_snoc (a : Nat) (s : Str) (c : Char) :
    digitsValAux a (s ++ [c]) =
      match digitsValAux a s with
      | some v =>
        (match digitVal c with
         | some d => some (v * 10 + d)
         | none => none)
      | none => none := by
  induction s generalizing a with
  | nil =>
    simp only [List.nil_append, digitsValAux]
    cases digitVal c <;> rfl
  | cons c0 s ih =>
    simp only [List.cons_append, digitsValAux]
    cases digitVal c0 with
    | none => rfl
    | some d0 => exact ih _

theorem digitsValAux_natToDigits (n : Nat) :
    ∀ a, digitsValAux a (natToDigits n []) =
      some (a * 10 ^ (natToDigits n []).length + n) := by
  induction n using Nat.strong_induction_on with
  | _ n ih =>
    intro a
    by_cases h : n < 10
    · rw [natToDigits_step, if_pos h]
      simp only [digitsValAux, digitVal_digitChar h, List.length_cons, List.length_nil]
      simp
    · have hlt : n / 10 < n := Nat.div_lt_self (by omega) (by omega)
      rw [natToDigits_step, if_neg h, natToDigits_append]
      rw [digitsValAux_snoc, ih (n / 10) hlt a]
      rw [digitVal_digitChar (by omega)]
      have hlen : (natToDigits (n / 10) [] ++ [digitChar (n % 10)]).length
          = (natToDigits (n / 10) []).length + 1 := by simp
      rw [hlen]
      show some ((a * 10 ^ (natToDigits (n / 10) []).length + n / 10) * 10 + n % 10)
          = some (a * 10 ^ ((natToDigits (n / 10) []).length + 1) + n)
      congr 1
      have hdm : n / 10 * 10 + n % 10 = n := by omega
      calc (a * 10 ^ (natToDigits (n / 10) []).length + n / 10) * 10 + n % 10
          = a * (10 ^ (natToDigits (n / 10) []).length * 10) + (n / 10 * 10 + n % 10) := by
            ring
        _ = a * 10 ^ ((natToDigits (n / 10) []).length + 1) + n := by rw [hdm, pow_succ]

theorem digitsVal_natToDigits (n : Nat) : digitsVal (natToDigits n []) = some n := by
  obtain ⟨c, rest, heq, hc1, hc2⟩ := natToDigits_head n []
  have h1 : digitsVal (natToDigits n []) = digitsValAux 0 (natToDigits n []) := by
    rw [heq]
    rfl
  rw [h1, digitsValAux_natToDigits n 0]
  simp

theorem Atoi_cons (c : Char) (rest : Str) :
    Atoi (c :: rest) =
      if c = '+' then
        match digitsVal rest with
        | some n => some ((n : Int))
        | none => none
      else if c = '-' then
        match digitsVal rest with
        | some n => some (-(n : Int))
        | none => none
      else
        match digitsVal (c :: rest) with
        | some n => some ((n : Int))
        | none => none := rfl

theorem Atoi_Itoa (i : Int) : Atoi (Itoa i) = some i := by
  unfold Itoa
  by_cases hi : i < 0
  · rw [if_pos hi]
    rw [Atoi_cons, if_neg (by decide), if_pos rfl, digitsVal_natToDigits]
    show some (-(i.natAbs : Int)) = some i
    congr 1
    omega
  · rw [if_neg hi]
    obtain ⟨c, rest, heq, hc1, hc2⟩ := natToDigits_head i.toNat []
    have hcp : c ≠ '+' := by
      intro he
      rw [he] at hc1
      exact absurd hc1 (by decide)
    have hcm : c ≠ '-' := by
      intro he
      rw [he] at hc1
      exact absurd hc1 (by decide)
    rw [heq, Atoi_cons, if_neg hcp, if_neg hcm, ← heq, digitsVal_natToDigits]
    show some ((i.toNat : Int)) = some i
    congr 1
    omega

/-! ### Unescape/escape roundtrip -/

theorem charOfNat_toNat_lt {n : Nat} (h : n < 55296) : (Char.ofNat n).toNat = n := by
  have hv : n.isValidChar := Or.inl h
  simp [Char.ofNat, hv, Char.ofNatAux, Char.toNat, UInt32.toNat, BitVec.toNat_ofNat]

theorem hexDigitVal_upperHexDigit (n : Nat) :
    hexDigitVal (upperHexDigit n) = some (n % 16) := by
  unfold upperHexDigit hexDigitVal
  have h16 : n % 16 < 16 := Nat.mod_lt _ (by omega)
  by_cases h : n % 16 < 10
  · rw [if_pos h, charOfNat_toNat (by omega) (by omega), if_pos (by omega)]
    congr 1
    omega
  · rw [if_neg h, charOfNat_toNat (by omega) (by omega), if_neg (by omega),
      if_neg (by omega), if_pos (by omega)]
    congr 1
    omega

theorem hexDigitVal_le {c : Char} {d : Nat} (h : hexDigitVal c = some d) : d ≤ 15 := by
  unfold hexDigitVal at h
  by_cases h1 : 48 ≤ c.toNat ∧ c.toNat ≤ 57
  · rw [if_pos h1] at h
    injection h with h
    omega
  · rw [if_neg h1] at h
    by_cases h2 : 97 ≤ c.toNat ∧ c.toNat ≤ 102
    · rw [if_pos h2] at h
      injection h with h
      omega
    · rw [if_neg h2] at h
      by_cases h3 : 65 ≤ c.toNat ∧ c.toNat ≤ 70
      · rw [if_pos h3] at h
        injection h with h
        omega
      · rw [if_neg h3] at h
        exact absurd h (by simp)

theorem queryUnescape_pct (a b : Char) (t : Str) :
    queryUnescape ('%' :: a :: b :: t) =
      match hexDigitVal a, hexDigitVal b with
      | some d1, some d2 => (queryUnescape t).map (fun u => Char.ofNat (d1 * 16 + d2) :: u)
      | _, _ => none := by
  rw [queryUnescape.eq_def]
  simp

theorem queryUnescape_plus (rest : Str) :
    queryUnescape ('+' :: rest) = (queryUnescape rest).map (fun t => ' ' :: t) := by
  rw [queryUnescape.eq_def]
  simp

theorem queryUnescape_cons_ne {c : Char} (rest : Str) (h1 : c ≠ '%') (h2 : c ≠ '+') :
    queryUnescape (c :: rest) = (queryUnescape rest).map (fun t => c :: t) := by
  rw [queryUnescape.eq_def]
  simp [h1, h2]

theorem queryUnescape_queryEscape {s : Str} (h : ∀ c ∈ s, c.toNat < 256) :
    queryUnescape (queryEscape s) = some s := by
  induction s with
  | nil => rfl
  | cons c rest ih =>
    have hc : c.toNat < 256 := h c (List.mem_cons_self c rest)
    have hr : queryUnescape (queryEscape rest) = some rest :=
      ih (fun x hx => h x (List.mem_cons_of_mem _ hx))
    show queryUnescape (queryEscapeChar c ++ queryEscape rest) = some (c :: rest)
    unfold queryEscapeChar
    by_cases h1 : c = ' '
    · subst h1
      rw [if_pos rfl]
      show queryUnescape ('+' :: queryEscape rest) = _
      rw [queryUnescape_plus, hr]
      rfl
    · rw [if_neg h1]
      by_cases h2 : shouldEscape c
      · rw [if_pos h2]
        have harith : c.toNat / 16 % 16 * 16 + c.toNat % 16 = c.toNat := by omega
        show queryUnescape
            ('%' :: upperHexDigit (c.toNat / 16) :: upperHexDigit c.toNat :: queryEscape rest)
          = some (c :: rest)
        rw [queryUnescape_pct, hexDigitVal_upperHexDigit, hexDigitVal_upperHexDigit, hr]
        show some (Char.ofNat (c.toNat / 16 % 16 * 16 + c.toNat % 16) :: rest) = some (c :: rest)
        rw [harith, Char.ofNat_toNat]
      · rw [if_neg h2]
        have hpc : c ≠ '%' := by
          intro he
          exact h2 (by rw [he]; decide)
        have hpl : c ≠ '+' := by
          intro he
          exact h2 (by rw [he]; decide)
        show queryUnescape (c :: queryEscape rest) = _
        rw [queryUnescape_cons_ne _ hpc hpl, hr]
        rfl

theorem queryUnescape_chars_lt {s : Str} (hs : ∀ c ∈ s, c.toNat < 128) :
    ∀ {t : Str}, queryUnescape s = some t → ∀ c ∈ t, c.toNat < 256 := by
  induction s using queryUnescape.induct with
  | case1 =>
    intro t h c hc
    have ht : t = [] := by
      have h2 : some ([] : Str) = some t := h
      injection h2 with h2
      exact h2.symm
    subst ht
    exact absurd hc (by simp)
  | case2 h1 h2 rest2 d1 d2 hd2 hd1 ih =>
    intro t h c hc
    rw [queryUnescape_pct, hd1, hd2] at h
    cases hq : queryUnescape rest2 with
    | none => rw [hq] at h; exact absurd h (by simp)
    | some t2 =>
      rw [hq] at h
      have ht : t = Char.ofNat (d1 * 16 + d2) :: t2 := by
        have h3 : some (Char.ofNat (d1 * 16 + d2) :: t2) = some t := h
        injection h3 with h3
        exact h3.symm
      subst ht
      rcases List.mem_cons.mp hc with rfl | hm
      · have hd1b := hexDigitVal_le hd1
        have hd2b := hexDigitVal_le hd2
        rw [charOfNat_toNat_lt (by omega)]
        omega
      · exact ih (fun x hx => hs x (by simp [hx])) hq c hm
  | case3 h1 h2 rest2 hfail =>
    intro t h c hc
    exfalso
    rw [queryUnescape_pct] at h
    cases hd1 : hexDigitVal h1 with
    | none =>
      rw [hd1] at h
      cases hd2 : hexDigitVal h2 with
      | none => rw [hd2] at h; exact absurd h (by simp)
      | some d2 => rw [hd2] at h; exact absurd h (by simp)
    | some d1 =>
      cases hd2 : hexDigitVal h2 with
      | none => rw [hd1, hd2] at h; exact absurd h (by simp)
      | some d2 => exact hfail d1 d2 hd1 hd2
  | case4 rest hne =>
    intro t h c hc
    exfalso
    cases rest with
    | nil => exact absurd h (by rw [queryUnescape.eq_def]; simp)
    | cons x xs =>
      cases xs with
      | nil => exact absurd h (by rw [queryUnescape.eq_def]; simp)
      | cons y ys => exact hne x y ys rfl
  | case5 rest ihne ih =>
    intro t h c hc
    rw [queryUnescape_plus] at h
    cases hq : queryUnescape rest with
    | none => rw [hq] at h; exact absurd h (by simp)
    | some t2 =>
      rw [hq] at h
      have ht : t = ' ' :: t2 := by
        have h3 : some (' ' :: t2) = some t := h
        injection h3 with h3
        exact h3.symm
      subst ht
      rcases List.mem_cons.mp hc with rfl | hm
      · decide
      · exact ih (fun x hx => hs x (by simp [hx])) hq c hm
  | case6 c0 rest hc1 hc2 ih =>
    intro t h c hc
    rw [queryUnescape_cons_ne _ hc1 hc2] at h
    cases hq : queryUnescape rest with
    | none => rw [hq] at h; exact absurd h (by simp)
    | some t2 =>
      rw [hq] at h
      have ht : t = c0 :: t2 := by
        have h3 : some (c0 :: t2) = some t := h
        injection h3 with h3
        exact h3.symm
      subst ht
      rcases List.mem_cons.mp hc with rfl | hm
      · have := hs c (by simp)
        omega
      · exact ih (fun x hx => hs x (by simp [hx])) hq c hm

/-! ### Bounded characters through parsing -/

theorem mem_of_mem_splitOnCh {sep : Char} {s : Str} :
    ∀ {seg : Str}, seg ∈ splitOnCh sep s → ∀ {c : Char}, c ∈ seg → c ∈ s := by
  induction s with
  | nil =>
    intro seg hseg c hc
    simp [splitOnCh] at hseg
    subst hseg
    exact absurd hc (by simp)
  | cons c0 rest ih =>
    intro seg hseg c hc
    simp only [splitOnCh] at hseg
    cases hsp : splitOnCh sep rest with
    | nil => exact absurd hsp (splitOnCh_ne_nil sep rest)
    | cons s1 ss =>
      rw [hsp] at hseg
      dsimp only at hseg
      by_cases hc0 : c0 = sep
      · rw [if_pos hc0] at hseg
        rcases List.mem_cons.mp hseg with rfl | hm
        · exact absurd hc (by simp)
        · exact List.mem_cons_of_mem _ (ih (hsp ▸ hm) hc)
      · rw [if_neg hc0] at hseg
        rcases List.mem_cons.mp hseg with rfl | hm
        · rcases List.mem_cons.mp hc with rfl | hm2
          · exact List.mem_cons_self c rest
          · exact List.mem_cons_of_mem _ (ih (hsp ▸ List.mem_cons_self s1 ss) hm2)
        · exact List.mem_cons_of_mem _ (ih (hsp ▸ List.mem_cons_of_mem _ hm) hc)

theorem mem_cutEq_fst {s : Str} {c : Char} (h : c ∈ (cutEq s).1) : c ∈ s := by
  induction s with
  | nil => exact absurd h (by simp [cutEq])
  | cons c0 rest ih =>
    by_cases h0 : c0 = '='
    · simp only [cutEq, if_pos h0] at h
      exact absurd h (by simp)
    · simp only [cutEq, if_neg h0] at h
      rcases List.mem_cons.mp h with rfl | hm
      · exact List.mem_cons_self c rest
      · exact List.mem_cons_of_mem _ (ih hm)

theorem mem_cutEq_snd {s : Str} {c : Char} (h : c ∈ (cutEq s).2) : c ∈ s := by
  induction s with
  | nil => exact absurd h (by simp [cutEq])
  | cons c0 rest ih =>
    by_cases h0 : c0 = '='
    · simp only [cutEq, if_pos h0] at h
      exact List.mem_cons_of_mem _ h
    · simp only [cutEq, if_neg h0] at h
      exact List.mem_cons_of_mem _ (ih h)

theorem segKV_chars_lt {seg : Str} {kv : Str × Str}
    (hseg : ∀ c ∈ seg, c.toNat < 128) (h : segKV seg = some kv) :
    (∀ c ∈ kv.1, c.toNat < 256) ∧ (∀ c ∈ kv.2, c.toNat < 256) := by
  unfold segKV at h
  by_cases h1 : seg = []
  · rw [if_pos h1] at h
    exact absurd h (by simp)
  · rw [if_neg h1] at h
    by_cases h2 : ';' ∈ seg
    · rw [if_pos h2] at h
      exact absurd h (by simp)
    · rw [if_neg h2] at h
      cases hk : queryUnescape (cutEq seg).1 with
      | none => rw [hk] at h; exact absurd h (by simp)
      | some k =>
        cases hv : queryUnescape (cutEq seg).2 with
        | none => rw [hk, hv] at h; exact absurd h (by simp)
        | some v =>
          rw [hk, hv] at h
          have hkv : kv = (k, v) := by
            have h3 : some ((k, v) : Str × Str) = some kv := h
            injection h3 with h3
            exact h3.symm
          subst hkv
          constructor
          · exact queryUnescape_chars_lt (fun c hc => hseg c (mem_cutEq_fst hc)) hk
          · exact queryUnescape_chars_lt (fun c hc => hseg c (mem_cutEq_snd hc)) hv

theorem valuesAdd_bound {m : Values} {k v : Str}
    (hm : ∀ kv ∈ m, (∀ c ∈ kv.1, c.toNat < 256) ∧ ∀ w ∈ kv.2, ∀ c ∈ w, c.toNat < 256)
    (hk : ∀ c ∈ k, c.toNat < 256) (hv : ∀ c ∈ v, c.toNat < 256) :
    ∀ kv ∈ valuesAdd m k v,
      (∀ c ∈ kv.1, c.toNat < 256) ∧ ∀ w ∈ kv.2, ∀ c ∈ w, c.toNat < 256 := by
  induction m with
  | nil =>
    intro kv hkv
    simp only [valuesAdd, List.mem_singleton] at hkv
    subst hkv
    refine ⟨hk, ?_⟩
    intro w hw
    simp only [List.mem_singleton] at hw
    subst hw
    exact hv
  | cons kv0 rest ih =>
    intro kv hkv
    by_cases h0 : kv0.1 = k
    · simp only [valuesAdd, if_pos h0] at hkv
      rcases List.mem_cons.mp hkv with rfl | hmem
      · refine ⟨(hm kv0 (List.mem_cons_self kv0 rest)).1, ?_⟩
        intro w hw
        rcases List.mem_append.mp hw with hw2 | hw2
        · exact (hm kv0 (List.mem_cons_self kv0 rest)).2 w hw2
        · simp only [List.mem_singleton] at hw2
          subst hw2
          exact hv
      · exact hm kv (List.mem_cons_of_mem _ hmem)
    · simp only [valuesAdd, if_neg h0] at hkv
      rcases List.mem_cons.mp hkv with rfl | hmem
      · exact hm kv (List.mem_cons_self kv rest)
      · exact ih (fun x hx => hm x (List.mem_cons_of_mem _ hx)) kv hmem

theorem parse_pairs_chars_lt {s : Str} (hs : ∀ c ∈ s, c.toNat < 128) :
    ∀ kv ∈ ParseQuery s,
      (∀ c ∈ kv.1, c.toNat < 256) ∧ ∀ v ∈ kv.2, ∀ c ∈ v, c.toNat < 256 := by
  have main : ∀ (segs : List Str) (m : Values),
      (∀ seg ∈ segs, ∀ c ∈ seg, c.toNat < 128) →
      (∀ kv ∈ m, (∀ c ∈ kv.1, c.toNat < 256) ∧ ∀ v ∈ kv.2, ∀ c ∈ v, c.toNat < 256) →
      ∀ kv ∈ parseQuerySegs segs m,
        (∀ c ∈ kv.1, c.toNat < 256) ∧ ∀ v ∈ kv.2, ∀ c ∈ v, c.toNat < 256 := by
    intro segs
    induction segs with
    | nil => intro m _ hm; exact hm
    | cons seg rest ih =>
      intro m hsegs hm
      unfold parseQuerySegs
      cases hsk : segKV seg with
      | none => exact ih m (fun x hx => hsegs x (List.mem_cons_of_mem _ hx)) hm
      | some kv2 =>
        apply ih _ (fun x hx => hsegs x (List.mem_cons_of_mem _ hx))
        obtain ⟨hk2, hv2⟩ := segKV_chars_lt (hsegs seg (List.mem_cons_self seg rest)) hsk
        exact valuesAdd_bound hm hk2 hv2
  exact main _ [] (fun seg hseg c hc => hs c (mem_of_mem_splitOnCh hseg hc)) (by simp)

theorem natToDigits_chars_lt (n : Nat) :
    ∀ acc, (∀ c ∈ acc, c.toNat < 256) → ∀ c ∈ natToDigits n acc, c.toNat < 256 := by
  induction n using Nat.strong_induction_on with
  | _ n ih =>
    intro acc hacc c hc
    rw [natToDigits_step] at hc
    by_cases h : n < 10
    · rw [if_pos h] at hc
      rcases List.mem_cons.mp hc with rfl | hm
      · unfold digitChar
        rw [charOfNat_toNat (by omega) (by omega)]
        omega
      · exact hacc c hm
    · rw [if_neg h] at hc
      refine ih (n / 10) (Nat.div_lt_self (by omega) (by omega)) _ ?_ c hc
      intro x hx
      rcases List.mem_cons.mp hx with rfl | hm
      · unfold digitChar
        rw [charOfNat_toNat (by omega) (by omega)]
        omega
      · exact hacc x hm

theorem Itoa_chars_lt (i : Int) : ∀ c ∈ Itoa i, c.toNat < 256 := by
  unfold Itoa
  by_cases hi : i < 0
  · rw [if_pos hi]
    intro c hc
    rcases List.mem_cons.mp hc with rfl | hm
    · decide
    · exact natToDigits_chars_lt _ _ (by simp) c hm
  · rw [if_neg hi]
    exact natToDigits_chars_lt _ _ (by simp)

/-! ### Reparsing the encoded payload -/

theorem getAll_parseQuerySegs (segs : List Str) (m : Values) (key : Str) :
    valuesGetAll (parseQuerySegs segs m) key
      = valuesGetAll m key ++ segContribs key segs := by
  induction segs generalizing m with
  | nil => simp [parseQuerySegs, segContribs]
  | cons seg rest ih =>
    simp only [parseQuerySegs, segContribs]
    cases hsk : segKV seg with
    | none => rw [ih]; simp
    | some kv =>
      rw [ih]
      dsimp only
      by_cases hk : kv.1 = key
      · rw [if_pos hk]
        rw [show valuesAdd m kv.1 kv.2 = valuesAdd m key kv.2 from by rw [hk]]
        rw [getAll_valuesAdd_same]
        simp
      · rw [if_neg hk, getAll_valuesAdd_other hk]
        simp

theorem segContribs_append (key : Str) (a b : List Str) :
    segContribs key (a ++ b) = segContribs key a ++ segContribs key b := by
  induction a with
  | nil => simp [segContribs]
  | cons seg rest ih => simp [segContribs, ih]

theorem segKV_encoded {k v : Str} (hk : ∀ c ∈ k, c.toNat < 256)
    (hv : ∀ c ∈ v, c.toNat < 256) :
    segKV (queryEscape k ++ '=' :: queryEscape v) = some (k, v) := by
  unfold segKV
  rw [if_neg (by simp)]
  have hsemi : ';' ∉ queryEscape k ++ '=' :: queryEscape v := by
    intro hm
    rcases List.mem_append.mp hm with h1 | h1
    · exact semi_not_mem_queryEscape _ h1
    · rcases List.mem_cons.mp h1 with h2 | h2
      · exact absurd h2 (by decide)
      · exact semi_not_mem_queryEscape _ h2
  rw [if_neg hsemi]
  rw [cutEq_append _ (eqch_not_mem_queryEscape k)]
  dsimp only
  rw [queryUnescape_queryEscape hk, queryUnescape_queryEscape hv]

theorem segContribs_encodePair (key : Str) {kv : Str × List Str}
    (hk : ∀ c ∈ kv.1, c.toNat < 256) (hv : ∀ w ∈ kv.2, ∀ c ∈ w, c.toNat < 256) :
    segContribs key (encodePair kv) = if kv.1 = key then kv.2 else [] := by
  obtain ⟨k, vs⟩ := kv
  simp only at hk hv
  induction vs with
  | nil =>
    by_cases hkk : k = key <;> simp [encodePair, segContribs, hkk]
  | cons v rest ih =>
    have hstep : encodePair (k, v :: rest)
        = (queryEscape k ++ '=' :: queryEscape v) :: encodePair (k, rest) := rfl
    rw [hstep]
    simp only [segContribs]
    rw [segKV_encoded hk (hv v (List.mem_cons_self v rest)),
      ih (fun w hw => hv w (List.mem_cons_of_mem _ hw))]
    dsimp only
    by_cases hkk : k = key <;> simp [hkk]

theorem segContribs_concatPairSegs (key : Str) {m : Values}
    (hm : ∀ kv ∈ m, (∀ c ∈ kv.1, c.toNat < 256) ∧ ∀ w ∈ kv.2, ∀ c ∈ w, c.toNat < 256) :
    segContribs key (concatPairSegs m) = pairContrib key m := by
  induction m with
  | nil => rfl
  | cons kv rest ih =>
    simp only [concatPairSegs, pairContrib]
    rw [segContribs_append,
      segContribs_encodePair key (hm kv (List.mem_cons_self kv rest)).1
        (hm kv (List.mem_cons_self kv rest)).2,
      ih (fun x hx => hm x (List.mem_cons_of_mem _ hx))]

theorem pairContrib_append (key : Str) (a b : Values) :
    pairContrib key (a ++ b) = pairContrib key a ++ pairContrib key b := by
  induction a with
  | nil => simp [pairContrib]
  | cons kv rest ih => simp [pairContrib, ih]

theorem pairContrib_unbound {m : Values} {key : Str}
    (h : key ∉ m.map Prod.fst) : pairContrib key m = [] := by
  induction m with
  | nil => rfl
  | cons kv rest ih =>
    have h1 : kv.1 ≠ key := by
      intro he
      exact h (by simp [← he])
    have h2 : key ∉ rest.map Prod.fst := fun hm => h (by simp [hm])
    simp [pairContrib, h1, ih h2]

theorem valuesAdd_unbound {m : Values} {k : Str} (v : Str)
    (h : k ∉ m.map Prod.fst) : valuesAdd m k v = m ++ [(k, [v])] := by
  induction m with
  | nil => rfl
  | cons kv rest ih =>
    have h1 : kv.1 ≠ k := by
      intro he
      exact h (by simp [← he])
    have h2 : k ∉ rest.map Prod.fst := fun hm => h (by simp [hm])
    simp [valuesAdd, h1, ih h2]

theorem pairContrib_perm {m m2 : Values} (h : m.Perm m2) (key : Str) :
    (pairContrib key m).Perm (pairContrib key m2) := by
  induction h with
  | nil => exact List.Perm.refl _
  | cons x h ih => exact List.Perm.append_left _ ih
  | swap x y l =>
    show ((if y.1 = key then y.2 else []) ++ ((if x.1 = key then x.2 else []) ++ pairContrib key l)).Perm
      ((if x.1 = key then x.2 else []) ++ ((if y.1 = key then y.2 else []) ++ pairContrib key l))
    exact List.perm_append_comm_assoc _ _ _
  | trans h1 h2 ih1 ih2 => exact ih1.trans ih2

theorem getAll_parse_buildPayload {raw : Str} (t : Int)
    (h128 : ∀ c ∈ raw, c.toNat < 128)
    (hkey : scrapeTimeoutKey ∉ (ParseQuery raw).map Prod.fst) :
    valuesGetAll (ParseQuery (buildPayload raw t)) scrapeTimeoutKey = [Itoa t] := by
  have hbounds : ∀ kv ∈ valuesAdd (ParseQuery raw) scrapeTimeoutKey (Itoa t),
      (∀ c ∈ kv.1, c.toNat < 256) ∧ ∀ w ∈ kv.2, ∀ c ∈ w, c.toNat < 256 :=
    valuesAdd_bound (parse_pairs_chars_lt h128) (by decide) (Itoa_chars_lt t)
  have hsorted_bounds : ∀ kv ∈ sortPairs (valuesAdd (ParseQuery raw) scrapeTimeoutKey (Itoa t)),
      (∀ c ∈ kv.1, c.toNat < 256) ∧ ∀ w ∈ kv.2, ∀ c ∈ w, c.toNat < 256 := by
    intro kv hkv
    exact hbounds kv ((List.perm_insertionSort _ _).mem_iff.mp hkv)
  have hContrib_m : pairContrib scrapeTimeoutKey
      (valuesAdd (ParseQuery raw) scrapeTimeoutKey (Itoa t)) = [Itoa t] := by
    rw [valuesAdd_unbound _ hkey, pairContrib_append, pairContrib_unbound hkey]
    simp [pairContrib]
  have hContrib_sorted : pairContrib scrapeTimeoutKey
      (sortPairs (valuesAdd (ParseQuery raw) scrapeTimeoutKey (Itoa t))) = [Itoa t] := by
    apply List.Perm.eq_singleton
    rw [← hContrib_m]
    exact pairContrib_perm (List.perm_insertionSort _ _) _
  have hSeg : segContribs scrapeTimeoutKey
      (encodePairs (valuesAdd (ParseQuery raw) scrapeTimeoutKey (Itoa t))) = [Itoa t] := by
    unfold encodePairs
    rw [segContribs_concatPairSegs _ hsorted_bounds]
    exact hContrib_sorted
  have hne : encodePairs (valuesAdd (ParseQuery raw) scrapeTimeoutKey (Itoa t)) ≠ [] := by
    intro hE
    rw [hE] at hSeg
    exact absurd hSeg (by simp [segContribs])
  have hsplit : splitOnCh '&'
      (valuesEncode (valuesAdd (ParseQuery raw) scrapeTimeoutKey (Itoa t)))
      = encodePairs (valuesAdd (ParseQuery raw) scrapeTimeoutKey (Itoa t)) := by
    unfold valuesEncode
    exact splitOnCh_joinCh hne (fun seg hm => amp_not_mem_concatPairSegs hm)
  unfold ParseQuery buildPayload
  rw [hsplit, getAll_parseQuerySegs, hSeg]
  rfl

theorem scrapeTimeoutSecs_Itoa (t : Int) : scrapeTimeoutSecs (Itoa t) = t := by
  unfold scrapeTimeoutSecs
  rw [Atoi_Itoa]

/-! ### C8: scrape-timeout propagation -/

/-- C8 counterexample: with the header set to 7 but the original query
string already carrying `x-prometheus-scrape-timeout-seconds=5`, the
bridge issues its bus request with a 7-second deadline while the responder
(whose `Values.Get` returns the first value of the key, the original `5`)
runs its HTTP client with a 5-second timeout — the header-derived T is not
applied on both legs. -/
theorem c8_timeout_counterexample :
    ((ProxyRequestHandler defaultTopicBase defaultTopicFmt
        { xForwardedHost := [], host := ("h:1").data,
          scrapeTimeoutHeader := ("7").data,
          rawQuery := ("x-prometheus-scrape-timeout-seconds=5").data }
        (fun _ => .ok [])).busRequest).map BusRequest.timeoutNs
      = some (7 * 1000000000) ∧
    ((ProxyRequestHandler defaultTopicBase defaultTopicFmt
        { xForwardedHost := [], host := ("h:1").data,
          scrapeTimeoutHeader := ("7").data,
          rawQuery := ("x-prometheus-scrape-timeout-seconds=5").data }
        (fun _ => .ok [])).busRequest).map BusRequest.payload
      = some (buildPayload (("x-prometheus-scrape-timeout-seconds=5").data) 7) ∧
    ((ProxyPrometheusRequest ("t").data ("http://e").data
        (buildPayload (("x-prometheus-scrape-timeout-seconds=5").data) 7)
        (fun _ => .ok { status := 200, body := .ok [] })).1).map OutboundGet.timeoutNs
      = some (5 * 1000000000) ∧
    (5 * 1000000000 : Int) ≠ 7 * 1000000000 :=
  ⟨rfl, rfl, rfl, by decide⟩

/-- C8 amended: when the original query string is ASCII and does not
already contain the scrape-timeout key, the header-derived
T = `scrapeTimeoutSecs hdr` (default 10 on absence or parse failure) is
applied on both legs of the same logical pull: the bridge's bus request
carries timeout T seconds and payload `buildPayload raw T`, and the
responder given that payload runs its outbound HTTP client with timeout T
seconds. If the original query does carry the key, the responder instead
uses the query's first value. -/
theorem c8_timeout_propagation (hdr raw topic urlHost : Str)
    (doGet : OutboundGet → Except Unit HttpResponse)
    (h128 : ∀ c ∈ raw, c.toNat < 128)
    (hkey : scrapeTimeoutKey ∉ (ParseQuery raw).map Prod.fst)
    (htop : topic ≠ []) :
    ((ProxyPrometheusRequest topic urlHost (buildPayload raw (scrapeTimeoutSecs hdr))
        doGet).1).map OutboundGet.timeoutNs
      = some (scrapeTimeoutSecs hdr * 1000000000) ∧
    (∀ base fmt host bus req,
      (ProxyRequestHandler base fmt
          { xForwardedHost := [], host := host, scrapeTimeoutHeader := hdr, rawQuery := raw }
          bus).busRequest = some req →
        req.timeoutNs = scrapeTimeoutSecs hdr * 1000000000 ∧
        req.payload = buildPayload raw (scrapeTimeoutSecs hdr)) := by
  constructor
  · have hget : valuesGet (ParseQuery (buildPayload raw (scrapeTimeoutSecs hdr)))
        scrapeTimeoutKey = Itoa (scrapeTimeoutSecs hdr) := by
      unfold valuesGet
      rw [getAll_parse_buildPayload (scrapeTimeoutSecs hdr) h128 hkey]
    unfold ProxyPrometheusRequest
    rw [if_neg htop]
    show some (scrapeTimeoutSecs (valuesGet
        (ParseQuery (buildPayload raw (scrapeTimeoutSecs hdr))) scrapeTimeoutKey)
        * 1000000000) = _
    rw [hget, scrapeTimeoutSecs_Itoa]
  · intro base fmt host bus req h
    simp only [ProxyRequestHandler] at h
    repeat' split at h
    all_goals try simp_all
    all_goals (subst h; exact ⟨rfl, rfl⟩)

/-- C8 witness: the amended statement at header value 7 and an original
query string `a=b` that does not carry the scrape-timeout key. -/
theorem c8_timeout_propagation_witness :
    ((ProxyPrometheusRequest (("t").data) (("u").data)
        (buildPayload (("a=b").data) (scrapeTimeoutSecs (("7").data)))
        (fun _ => .ok { status := 200, body := .ok [] })).1).map OutboundGet.timeoutNs
      = some (scrapeTimeoutSecs (("7").data) * 1000000000) :=
  (c8_timeout_propagation (("7").data) (("a=b").data) (("t").data) (("u").data)
    (fun _ => .ok { status := 200, body := .ok [] })
    (by decide) (by decide) (by decide)).1
